import Mathlib

/-!
# Verification of RAJA kernel-statement executor semantics

Shallow embedding of the RAJA CUDA `ForICount` statement executors
(`src/unnamed/part_000`), the SYCL kernel launch helpers
(`src/include/RAJA/policy/sycl/kernel/SyclKernel.hpp`), the new-reduce
resolve step (`src/new_reduce/tbb/reduce.hpp`), and spec-modelled parts
for the WorkGroup pipeline and the DAG executor whose implementations are
not among the provided sources.

The enclosed statements of an executor are abstracted as observers: each
call `enclosed_stmts_t::exec(data, flag)` in the source is recorded as an
`Invocation` event carrying the `Data` bindings at that call together with
the activity flag passed down.  C++ `int` values are modelled as `Int`.
-/

/-- The per-launch `Data` payload restricted to the bindings the executors
under study mutate: the offset bound to `ArgumentId` and the param bound to
`ParamId` (both are assigned the same value `i` in every `ForICount`
executor). -/
structure KernelData where
  offset : Int
  param : Int
deriving DecidableEq

/-- One call of `enclosed_stmts_t::exec(data, flag)`: the `Data` bindings at
the moment of the call and the activity flag passed down. -/
structure Invocation where
  data : KernelData
  active : Bool
deriving DecidableEq

/-- `RAJA::policy::cuda::WARP_SIZE`. -/
def WARP_SIZE : Int := 32

/-- Executor for `ForICount<ArgumentId, ParamId, cuda_thread_xyz_direct<Dim>>`
(part_000 lines 59–75).  `i = get_cuda_dim<ThreadDim>(threadIdx)` is the
calling lane's hardware thread index, passed as a parameter.  Returns the
final `Data` bindings and the invocation trace. -/
def cuda_thread_xyz_direct_exec (len i : Int) (_data : KernelData)
    (thread_active : Bool) : KernelData × List Invocation :=
  let d : KernelData := { offset := i, param := i }
  (d, [⟨d, thread_active && decide (i < len)⟩])

/-- Executor for `ForICount<ArgumentId, ParamId, cuda_warp_direct>`
(part_000 lines 107–123).  `i = threadIdx.x` is the lane id in the warp. -/
def cuda_warp_direct_exec (len i : Int) (_data : KernelData)
    (thread_active : Bool) : KernelData × List Invocation :=
  let d : KernelData := { offset := i, param := i }
  (d, [⟨d, thread_active && decide (i < len)⟩])

/-- Executor for `ForICount<ArgumentId, ParamId, cuda_warp_masked_direct<Mask>>`
(part_000 lines 218–234).  `mval = mask_t::maskValue(threadIdx.x)`. -/
def cuda_warp_masked_direct_exec (len mval : Int) (_data : KernelData)
    (thread_active : Bool) : KernelData × List Invocation :=
  let d : KernelData := { offset := mval, param := mval }
  (d, [⟨d, thread_active && decide (mval < len)⟩])

/-- Executor for `ForICount<ArgumentId, ParamId, cuda_thread_masked_direct<Mask>>`
(part_000 lines 340–355).  Same body as the warp-masked direct executor. -/
def cuda_thread_masked_direct_exec (len mval : Int) (_data : KernelData)
    (thread_active : Bool) : KernelData × List Invocation :=
  let d : KernelData := { offset := mval, param := mval }
  (d, [⟨d, thread_active && decide (mval < len)⟩])

/-- Executor for `ForICount<ArgumentId, ParamId, cuda_block_xyz_direct<Dim>>`
(part_000 lines 510–527).  `i = get_cuda_dim<BlockDim>(blockIdx)`.  Unlike
the thread/warp direct executors, the source guards the whole body with
`if (i < len)`: out-of-range blocks assign nothing and invoke nothing. -/
def cuda_block_xyz_direct_exec (len i : Int) (data : KernelData)
    (thread_active : Bool) : KernelData × List Invocation :=
  if i < len then
    let d : KernelData := { offset := i, param := i }
    (d, [⟨d, thread_active⟩])
  else
    (data, [])

/-- Body shared by the strided-loop executors
(`cuda_warp_loop` lines 152–179, `cuda_warp_masked_loop` lines 274–301,
`cuda_thread_masked_loop` lines 395–422, `cuda_thread_xyz_loop` lines
456–481): `for (ii = 0; ii < len; ii += stride) { i = ii + i0;
have_work = i < len; assign; enclosed(data, thread_active && have_work); }`.
The `0 < stride` guard reflects that hardware dimensions and mask sizes are
positive; it also bounds the recursion. -/
def stridedLoopGo (len stride i0 : Int) (thread_active : Bool) (ii : Int) :
    List Invocation :=
  if _h : 0 < stride ∧ ii < len then
    let i := ii + i0
    let have_work := decide (i < len)
    ⟨{ offset := i, param := i }, thread_active && have_work⟩ ::
      stridedLoopGo len stride i0 thread_active (ii + stride)
  else
    []
termination_by (len - ii).toNat
decreasing_by
  simp_wf
  omega

/-- Executor for `ForICount<ArgumentId, ParamId, cuda_warp_loop>`
(part_000 lines 152–179): `i0 = threadIdx.x`, stride `WARP_SIZE`. -/
def cuda_warp_loop_exec (len i0 : Int) (thread_active : Bool) :
    List Invocation :=
  stridedLoopGo len WARP_SIZE i0 thread_active 0

/-- Executor for `ForICount<ArgumentId, ParamId, cuda_thread_xyz_loop<Dim,Min>>`
(part_000 lines 456–481): `i0 = get_cuda_dim<ThreadDim>(threadIdx)`,
stride `get_cuda_dim<ThreadDim>(blockDim)`. -/
def cuda_thread_xyz_loop_exec (len blockDimSize i0 : Int)
    (thread_active : Bool) : List Invocation :=
  stridedLoopGo len blockDimSize i0 thread_active 0

/-- Executor for `ForICount<ArgumentId, ParamId, cuda_warp_masked_loop<Mask>>`
(part_000 lines 274–301): `i0 = mask_t::maskValue(threadIdx.x)`, stride
`mask_t::max_masked_size`. -/
def cuda_warp_masked_loop_exec (len maxMaskedSize m0 : Int)
    (thread_active : Bool) : List Invocation :=
  stridedLoopGo len maxMaskedSize m0 thread_active 0

/-- Executor for `ForICount<ArgumentId, ParamId, cuda_thread_masked_loop<Mask>>`
(part_000 lines 395–422): same body as the warp-masked loop executor. -/
def cuda_thread_masked_loop_exec (len maxMaskedSize m0 : Int)
    (thread_active : Bool) : List Invocation :=
  stridedLoopGo len maxMaskedSize m0 thread_active 0

/-- Body of the `cuda_block_xyz_loop` executor (part_000 lines 554–574):
`for (i = i0; i < len; i += stride) { assign; enclosed(data, thread_active); }`.
Unlike the thread/warp strided loops there is no `have_work` masking: only
in-range values of `i` reach the enclosed statements. -/
def blockLoopGo (len stride : Int) (thread_active : Bool) (i : Int) :
    List Invocation :=
  if _h : 0 < stride ∧ i < len then
    ⟨{ offset := i, param := i }, thread_active⟩ ::
      blockLoopGo len stride thread_active (i + stride)
  else
    []
termination_by (len - i).toNat
decreasing_by
  simp_wf
  omega

/-- Executor for `ForICount<ArgumentId, ParamId, cuda_block_xyz_loop<Dim>>`
(part_000 lines 554–574): `i0 = get_cuda_dim<BlockDim>(blockIdx)`, stride
`get_cuda_dim<BlockDim>(gridDim)`. -/
def cuda_block_xyz_loop_exec (len i0 gridDimSize : Int)
    (thread_active : Bool) : List Invocation :=
  blockLoopGo len gridDimSize thread_active i0

/-- Body of the `seq_exec` executor inside `CudaKernel` (part_000 lines
602–619): `for (i = 0; i < len; ++i) { assign; enclosed(data, thread_active); }`. -/
def seqGo (len : Int) (thread_active : Bool) (i : Int) : List Invocation :=
  if h : i < len then
    ⟨{ offset := i, param := i }, thread_active⟩ ::
      seqGo len thread_active (i + 1)
  else
    []
termination_by (len - i).toNat
decreasing_by
  simp_wf
  omega

/-- Executor for `ForICount<ArgumentId, ParamId, seq_exec>`
(part_000 lines 602–619). -/
def seq_exec_exec (len : Int) (thread_active : Bool) : List Invocation :=
  seqGo len thread_active 0

/-- The `static_assert(mask_t::max_masked_size <= RAJA::policy::cuda::WARP_SIZE)`
guarding instantiation of the `cuda_warp_masked_direct` executor
(part_000 lines 215–216): the executor builds exactly when the mask fits. -/
def cuda_warp_masked_direct_buildable (maxMaskedSize : Int) : Prop :=
  maxMaskedSize ≤ WARP_SIZE

/-- The `static_assert` guarding instantiation of the `cuda_warp_masked_loop`
executor (part_000 lines 271–272). -/
def cuda_warp_masked_loop_buildable (maxMaskedSize : Int) : Prop :=
  maxMaskedSize ≤ WARP_SIZE

/-- The `cuda_thread_masked_direct` executor (part_000 lines 313–357)
contains no `static_assert` on the mask size: it is instantiable for any
mask. -/
def cuda_thread_masked_direct_buildable (_maxMaskedSize : Int) : Prop :=
  True

/-- The `cuda_thread_masked_loop` executor (part_000 lines 368–424)
contains no `static_assert` on the mask size either. -/
def cuda_thread_masked_loop_buildable (_maxMaskedSize : Int) : Prop :=
  True

/-- The offsets that reach the enclosed statements with the activity flag
set, extracted from an invocation trace: these are the iterations whose
"effects" actually run (flag `false` suppresses effects only). -/
def activeOffsets (t : List Invocation) : List Int :=
  (t.filter (fun inv => inv.active)).map (fun inv => inv.data.offset)

/-- All active offsets produced by one launch of the `cuda_thread_xyz_direct`
executor across its participating hardware lanes `threadIdx = 0, …, T-1`,
entered with `thread_active = true` as in the kernel launcher. -/
def directLaunchOffsets (len : Int) (numThreads : Nat) : List Int :=
  (List.range numThreads).flatMap fun t =>
    activeOffsets (cuda_thread_xyz_direct_exec len (t : Int) ⟨0, 0⟩ true).2

/-- All active offsets produced by one launch of the `cuda_thread_xyz_loop`
executor across lanes `0, …, blockDim-1` (the stride equals the number of
participating lanes, as on the hardware). -/
def threadLoopLaunchOffsets (len : Int) (blockDimSize : Nat) : List Int :=
  (List.range blockDimSize).flatMap fun t =>
    activeOffsets (cuda_thread_xyz_loop_exec len (blockDimSize : Int) (t : Int) true)

/-- All active offsets produced by one launch of the `cuda_warp_loop`
executor across the `WARP_SIZE` lanes of a warp. -/
def warpLoopLaunchOffsets (len : Int) : List Int :=
  (List.range 32).flatMap fun t =>
    activeOffsets (cuda_warp_loop_exec len (t : Int) true)

/-- All active offsets produced by one launch of the
`cuda_warp_masked_direct` executor across the distinct mask values
`0, …, M-1` taken by `mask_t::maskValue` over the participating lanes. -/
def maskedDirectLaunchOffsets (len : Int) (maskSize : Nat) : List Int :=
  (List.range maskSize).flatMap fun m =>
    activeOffsets (cuda_warp_masked_direct_exec len (m : Int) ⟨0, 0⟩ true).2

/-- All active offsets produced by the `seq_exec` executor (a single lane
runs the whole loop). -/
def seqLaunchOffsets (len : Int) : List Int :=
  activeOffsets (seq_exec_exec len true)

/-- Observable operations of the SYCL launch helpers
(`SyclKernel.hpp` lines 154–180 and 198–216), in program order. -/
inductive SyclOp where
  | mallocDevice
  | memcpyToDevice
  | memcpyWait
  | submitKernel
  | queueWait
  | freeDevice
deriving DecidableEq

/-- `SyclLaunchHelperNonTrivial::launch` (SyclKernel.hpp lines 154–180):
`malloc_device`; `memcpy(...).wait()`; `submit(...).wait()` — the comment in
the source reads "Need to wait to free memory" — then `free`.  The `async`
launch-config flag is a member of the helper but is never consulted in this
body, so the operation sequence is the same for both flag values. -/
def SyclLaunchHelperNonTrivial.launch (_async : Bool) : List SyclOp :=
  [SyclOp.mallocDevice, SyclOp.memcpyToDevice, SyclOp.memcpyWait,
   SyclOp.submitKernel, SyclOp.queueWait, SyclOp.freeDevice]

/-- `SyclLaunchHelper::launch` (SyclKernel.hpp lines 198–216): submit the
kernel, then `if (!async) { qu->wait(); }`. -/
def SyclLaunchHelper.launch (async : Bool) : List SyclOp :=
  [SyclOp.submitKernel] ++ (if !async then [SyclOp.queueWait] else [])

/-- `detail::resolve` from `src/new_reduce/tbb/reduce.hpp` lines 22–26:
`*red.target = OP{}(red.val, *red.target)` — the accumulated value is
combined into the pre-existing target, not written over it. -/
def reduceResolve (op : Int → Int → Int) (val target : Int) : Int :=
  op val target

/-- `detail::combine` from `src/new_reduce/tbb/reduce.hpp` lines 16–20:
`out.val = OP{}(out.val, in.val)`. -/
def reduceCombine (op : Int → Int → Int) (outVal inVal : Int) : Int :=
  op outVal inVal

/-- A reducer's life cycle around one loop: `init` starts `val` at the
operation's identity (reduce.hpp lines 10–14), the loop and the reduction
tree fold every contribution into `val` with `combine`, and `resolve`
combines `val` into the target the reducer was initialized/reset with. -/
def reducerRun (op : Int → Int → Int) (identityVal target0 : Int)
    (xs : List Int) : Int :=
  reduceResolve op (xs.foldl (reduceCombine op) identityVal) target0

/-- Device memory for the WorkGroup model: an address → value map. -/
abbrev Store : Type := Int → Int

/-- Modelled from the spec: the WorkGroup engine implementation is not among
the provided sources (only its caller, `tut_halo-exchange.cpp`).  One
enqueued (segment, lambda) entry: a segment length and, per iteration, the
single (address, value) store the body performs — the gather/scatter shape
of the halo-exchange pack and unpack bodies. -/
structure WorkItem where
  len : Nat
  writes : Nat → Int × Int

/-- Perform one store. -/
def applyWrite (s : Store) (w : Int × Int) : Store :=
  fun a => if a = w.1 then w.2 else s a

/-- One independent sequential kernel launch of a single entry: iterations
`0, …, len-1` in order. -/
def seqKernelLaunch (s : Store) (item : WorkItem) : Store :=
  ((List.range item.len).map item.writes).foldl applyWrite s

/-- The reference behavior: K independent sequential kernel launches, one
per enqueued body, in enqueue order (the plain nested-loop C-style block of
the halo-exchange example). -/
def seqReference (items : List WorkItem) (s : Store) : Store :=
  items.foldl seqKernelLaunch s

/-- Modelled from the spec: a WorkPool is an ordered append-only collection
of enqueued entries. -/
abbrev WorkPool : Type := List WorkItem

/-- A fresh pool accepts enqueues starting from nothing. -/
def WorkPool.empty : WorkPool := []

/-- `WorkPool::enqueue(segment, lambda)` appends one entry. -/
def WorkPool.enqueue (p : WorkPool) (w : WorkItem) : WorkPool := p ++ [w]

/-- Modelled from the spec: `instantiate()` moves the pool storage into an
immutable dispatch table (the WorkGroup) and leaves the pool empty and
reusable. -/
def WorkPool.instantiate (p : WorkPool) : List WorkItem × WorkPool :=
  (p, [])

/-- Modelled from the spec: `run()` under an ordered policy issues one
launch per entry, strictly in enqueue order. -/
def WorkGroup.runOrdered (g : List WorkItem) (s : Store) : Store :=
  g.foldl seqKernelLaunch s

/-- The (entry, iteration) dispatch table of a group, flattened in enqueue
order: the multiset of stores one fused launch performs. -/
def dispatchWrites (g : List WorkItem) : List (Int × Int) :=
  g.flatMap fun e => (List.range e.len).map e.writes

/-- Modelled from the spec: `run()` under an unordered policy issues a
single fused launch whose (outer-iteration, entry-index) executions carry
no ordering guarantee; a run is therefore parameterized by the schedule in
which the hardware completes the dispatched stores — any permutation of the
dispatch table. -/
def WorkGroup.runUnordered (sched : List (Int × Int)) (s : Store) : Store :=
  sched.foldl applyWrite s

/-- The full ordered pipeline of the halo-exchange example: enqueue K
entries into an empty pool, `instantiate()`, `run()` the group. -/
def workgroupPipelineOrdered (items : List WorkItem) (s : Store) : Store :=
  WorkGroup.runOrdered ((items.foldl WorkPool.enqueue WorkPool.empty).instantiate).1 s

/-- Modelled from the spec: the DAG executor implementation is not among the
provided sources (only its unit test, `test-graph.cpp`).  A node is ready
once every in-edge's source has completed. -/
def predsDone (edges : List (Nat × Nat)) (done : List Nat) (x : Nat) : Bool :=
  edges.all fun e => !decide (e.2 = x) || decide (e.1 ∈ done)

/-- Modelled from the spec: topological traversal.  Repeatedly run the
first ready node of the pending list (the pending list's order stands for
the scheduler's unspecified choice among eligible nodes), appending it to
the completion order; stop when no pending node is ready. -/
def dagExecGo (edges : List (Nat × Nat)) (pending done : List Nat) :
    List Nat :=
  match hfind : pending.find? (predsDone edges done) with
  | none => done
  | some x => dagExecGo edges (pending.erase x) (done ++ [x])
termination_by pending.length
decreasing_by
  have hx := List.mem_of_find?_eq_some hfind
  have hlen := List.length_erase_of_mem hx
  have hpos : 0 < pending.length := List.length_pos.mpr (List.ne_nil_of_mem hx)
  omega

/-- Modelled from the spec: `DAG::exec` on a graph whose nodes are
`0, …, n-1` (as a pending list in the scheduler's consideration order)
returns the completion order of the nodes. -/
def DAG.exec (edges : List (Nat × Nat)) (pending : List Nat) : List Nat :=
  dagExecGo edges pending []

/-- C2 (amended): for the thread-direct and warp-direct executors, an
in-bounds lane recurses into the enclosed statements with `thread_active`
unchanged and an out-of-bounds lane still recurses, with the flag forced to
`false`; the block-direct executor instead guards its whole body with
`if (i < len)`, so an out-of-bounds block skips the enclosed statements
entirely rather than participating with an inactive flag. -/
theorem c2_direct_policy_bounds_flag (len i : Int) (d : KernelData)
    (tA : Bool) :
    (i < len →
      (cuda_thread_xyz_direct_exec len i d tA).2 = [⟨⟨i, i⟩, tA⟩] ∧
      (cuda_warp_direct_exec len i d tA).2 = [⟨⟨i, i⟩, tA⟩] ∧
      (cuda_block_xyz_direct_exec len i d tA).2 = [⟨⟨i, i⟩, tA⟩]) ∧
    (len ≤ i →
      (cuda_thread_xyz_direct_exec len i d tA).2 = [⟨⟨i, i⟩, false⟩] ∧
      (cuda_warp_direct_exec len i d tA).2 = [⟨⟨i, i⟩, false⟩] ∧
      (cuda_block_xyz_direct_exec len i d tA).2 = []) := by
  constructor
  · intro h
    simp [cuda_thread_xyz_direct_exec, cuda_warp_direct_exec,
      cuda_block_xyz_direct_exec, h]
  · intro h
    have h' : ¬ i < len := not_lt.mpr h
    simp [cuda_thread_xyz_direct_exec, cuda_warp_direct_exec,
      cuda_block_xyz_direct_exec, h']

/-- C2 witness: at `len = 3`, `i = 1` the thread-direct executor invokes the
enclosed statements once with the flag passed through. -/
theorem c2_direct_policy_bounds_flag_witness :
    (cuda_block_xyz_direct_exec 3 1 ⟨0, 0⟩ true).2 = [⟨⟨1, 1⟩, true⟩] :=
  ((c2_direct_policy_bounds_flag 3 1 ⟨0, 0⟩ true).1 (by norm_num)).2.2

/-- C2 counterexample: with segment length 1 and hardware index 2, the
block-direct executor performs no invocation at all (the claim predicts one
invocation with `thread_active = false`, as the thread-direct executor
indeed does at the same input). -/
theorem c2_counterexample_block_direct_skips :
    (cuda_block_xyz_direct_exec 1 2 ⟨0, 0⟩ true).2 = [] ∧
    (cuda_thread_xyz_direct_exec 1 2 ⟨0, 0⟩ true).2 = [⟨⟨2, 2⟩, false⟩] := by
  decide

/-- C9 (amended): the thread-direct, warp-direct and both masked-direct
executors assign the computed index to the offset and param bindings
unconditionally, before the bounds test — the invocation's `Data` carries
`i` even when `i ≥ len` and only the activity flag is withheld; the
block-direct executor however assigns only inside its bounds guard and
leaves the bindings untouched for an out-of-range block. -/
theorem c9_direct_bindings_unconditional (len i : Int) (d : KernelData)
    (tA : Bool) :
    (cuda_thread_xyz_direct_exec len i d tA).1 = ⟨i, i⟩ ∧
    (cuda_warp_direct_exec len i d tA).1 = ⟨i, i⟩ ∧
    (cuda_warp_masked_direct_exec len i d tA).1 = ⟨i, i⟩ ∧
    (cuda_thread_masked_direct_exec len i d tA).1 = ⟨i, i⟩ ∧
    ((cuda_thread_xyz_direct_exec len i d tA).2.map Invocation.data
      = [⟨i, i⟩]) ∧
    (len ≤ i → (cuda_block_xyz_direct_exec len i d tA).1 = d) := by
  refine ⟨rfl, rfl, rfl, rfl, rfl, fun h => ?_⟩
  have h' : ¬ i < len := not_lt.mpr h
  simp [cuda_block_xyz_direct_exec, h']

/-- C9 witness: an out-of-range block leaves the previous bindings in
place. -/
theorem c9_direct_bindings_unconditional_witness :
    (cuda_block_xyz_direct_exec 1 5 ⟨7, 7⟩ true).1 = ⟨7, 7⟩ :=
  (c9_direct_bindings_unconditional 1 5 ⟨7, 7⟩ true).2.2.2.2.2 (by norm_num)

/-- C9 counterexample: the block-direct executor does not assign the
out-of-range index 2 — the bindings keep their previous value ⟨0, 0⟩,
whereas the claim predicts ⟨2, 2⟩. -/
theorem c9_counterexample_block_direct_no_binding :
    (cuda_block_xyz_direct_exec 1 2 ⟨0, 0⟩ true).1 = ⟨0, 0⟩ ∧
    (⟨0, 0⟩ : KernelData) ≠ ⟨2, 2⟩ := by
  decide

/-- C7 (amended): the two warp-masked executors refuse to build whenever
`max_masked_size` exceeds `WARP_SIZE` (their `static_assert`), but the two
thread-masked executors carry no such assertion and build for any mask
size. -/
theorem c7_masked_size_static_assert (m : Int) (h : WARP_SIZE < m) :
    ¬ cuda_warp_masked_direct_buildable m ∧
    ¬ cuda_warp_masked_loop_buildable m ∧
    cuda_thread_masked_direct_buildable m ∧
    cuda_thread_masked_loop_buildable m := by
  refine ⟨?_, ?_, trivial, trivial⟩ <;>
    simp only [cuda_warp_masked_direct_buildable,
      cuda_warp_masked_loop_buildable, not_le] <;>
    exact h

/-- C7 witness: a mask of maximum size 64 exceeds the warp size and the
warp-masked direct executor rejects it at build time. -/
theorem c7_masked_size_static_assert_witness :
    ¬ cuda_warp_masked_direct_buildable 64 :=
  (c7_masked_size_static_assert 64 (by norm_num [WARP_SIZE])).1

/-- C7 counterexample: a mask of maximum size 64 exceeds `WARP_SIZE`, yet
both thread-masked executors build — not every masked policy enforces the
bound at build time. -/
theorem c7_counterexample_thread_masked_unchecked :
    WARP_SIZE < 64 ∧ cuda_thread_masked_direct_buildable 64 ∧
    cuda_thread_masked_loop_buildable 64 :=
  ⟨by norm_num [WARP_SIZE], trivial, trivial⟩

/-- C4: the non-trivially-copyable launch path always waits on the
submitted kernel before freeing the device-resident payload copy,
whatever the async launch-config flag says: the operation sequence is
flag-independent, the wait follows the submit, and the free follows the
wait. -/
theorem c4_nontrivial_launch_syncs_before_free (async : Bool) :
    SyclLaunchHelperNonTrivial.launch async
        = SyclLaunchHelperNonTrivial.launch false ∧
    SyclOp.queueWait ∈ SyclLaunchHelperNonTrivial.launch async ∧
    (SyclLaunchHelperNonTrivial.launch async).indexOf SyclOp.submitKernel <
      (SyclLaunchHelperNonTrivial.launch async).indexOf SyclOp.queueWait ∧
    (SyclLaunchHelperNonTrivial.launch async).indexOf SyclOp.queueWait <
      (SyclLaunchHelperNonTrivial.launch async).indexOf SyclOp.freeDevice := by
  cases async <;> decide

/-- C8: the trivially-copyable launch helper waits on the queue after
submitting exactly when the async flag is false; with async = true it
returns right after the submit with no wait. -/
theorem c8_trivial_launch_async_flag :
    SyclLaunchHelper.launch false = [SyclOp.submitKernel, SyclOp.queueWait] ∧
    SyclLaunchHelper.launch true = [SyclOp.submitKernel] ∧
    SyclOp.queueWait ∉ SyclLaunchHelper.launch true := by
  decide

/-- C10: resolving a max reducer combines the accumulated value into the
pre-existing target, so whenever no element of the input exceeds the value
the reducer was initialized with (and the operation identity does not
either), the final value is exactly the initial value. -/
theorem c10_resolve_keeps_initial_value (xs : List Int)
    (identityVal t0 : Int) (hid : identityVal ≤ t0)
    (hxs : ∀ x ∈ xs, x ≤ t0) :
    reducerRun max identityVal t0 xs = t0 := by
  have hfold : xs.foldl (reduceCombine max) identityVal ≤ t0 := by
    induction xs generalizing identityVal with
    | nil => simpa using hid
    | cons y ys ih =>
      simp only [List.foldl_cons]
      exact ih (reduceCombine max identityVal y)
        (max_le hid (hxs y (List.mem_cons_self y ys)))
        (fun x hx => hxs x (List.mem_cons_of_mem y hx))
  simp [reducerRun, reduceResolve, max_eq_right hfold]

/-- C10 witness: a max reducer initialized at 500 over elements all below
500 (with identity −32767) resolves to 500, as in the `max2` reducer of the
multiple-ReduceMax test. -/
theorem c10_resolve_keeps_initial_value_witness :
    reducerRun max (-32767) 500 [1, 2, 3] = 500 :=
  c10_resolve_keeps_initial_value [1, 2, 3] (-32767) 500 (by norm_num)
    (by decide)

/-- One unfolding of the strided loop body when the loop condition holds. -/
theorem stridedLoopGo_pos (len S i0 : Int) (tA : Bool) (ii : Int)
    (h : 0 < S ∧ ii < len) :
    stridedLoopGo len S i0 tA ii =
      ⟨{ offset := ii + i0, param := ii + i0 },
        tA && decide (ii + i0 < len)⟩ ::
        stridedLoopGo len S i0 tA (ii + S) := by
  rw [stridedLoopGo, dif_pos h]

/-- One unfolding of the strided loop body when the loop condition fails. -/
theorem stridedLoopGo_neg (len S i0 : Int) (tA : Bool) (ii : Int)
    (h : ¬(0 < S ∧ ii < len)) :
    stridedLoopGo len S i0 tA ii = [] := by
  rw [stridedLoopGo, dif_neg h]

/-- Every lane of a strided loop walks the same chunk sequence: its trace
offsets are lane 0's trace offsets shifted by the lane id.  In particular
every lane performs exactly one invocation per chunk, whether or not its
index is in range. -/
theorem stridedLoopGo_shift (len S i0 : Int) (tA : Bool) (ii : Int) :
    (stridedLoopGo len S i0 tA ii).map (fun inv => inv.data.offset)
      = (stridedLoopGo len S 0 tA ii).map (fun inv => inv.data.offset + i0) := by
  by_cases h : 0 < S ∧ ii < len
  · rw [stridedLoopGo_pos len S i0 tA ii h, stridedLoopGo_pos len S 0 tA ii h]
    simp only [List.map_cons]
    rw [stridedLoopGo_shift len S i0 tA (ii + S)]
    simp
  · rw [stridedLoopGo_neg len S i0 tA ii h, stridedLoopGo_neg len S 0 tA ii h]
    simp
termination_by (len - ii).toNat
decreasing_by omega

/-- Every invocation of a strided loop carries the flag
`thread_active && have_work` where `have_work` is exactly the bounds test
on the offset it was invoked with, and param mirrors offset. -/
theorem stridedLoopGo_active (len S i0 : Int) (tA : Bool) (ii : Int) :
    ∀ inv ∈ stridedLoopGo len S i0 tA ii,
      inv.active = (tA && decide (inv.data.offset < len)) ∧
      inv.data.param = inv.data.offset := by
  rw [stridedLoopGo]
  by_cases h : 0 < S ∧ ii < len
  · rw [dif_pos h]
    intro inv hinv
    rcases List.mem_cons.mp hinv with hhead | htail
    · subst hhead
      exact ⟨rfl, rfl⟩
    · exact stridedLoopGo_active len S i0 tA (ii + S) inv htail
  · rw [dif_neg h]
    intro inv hinv
    exact absurd hinv (List.not_mem_nil inv)
termination_by (len - ii).toNat
decreasing_by omega

/-- Every invocation of the block-stride loop carries `thread_active`
unchanged and an in-range offset: the loop condition filters out-of-range
indices before the enclosed statements are reached. -/
theorem blockLoopGo_active (len S : Int) (tA : Bool) (i : Int) :
    ∀ inv ∈ blockLoopGo len S tA i,
      inv.active = tA ∧ inv.data.offset < len ∧
      inv.data.param = inv.data.offset := by
  rw [blockLoopGo]
  by_cases h : 0 < S ∧ i < len
  · rw [dif_pos h]
    intro inv hinv
    rcases List.mem_cons.mp hinv with hhead | htail
    · subst hhead
      exact ⟨rfl, h.2, rfl⟩
    · exact blockLoopGo_active len S tA (i + S) inv htail
  · rw [dif_neg h]
    intro inv hinv
    exact absurd hinv (List.not_mem_nil inv)
termination_by (len - i).toNat
decreasing_by omega

/-- A block lane whose start index is already past the segment performs no
invocation at all. -/
theorem blockLoopGo_past_end (len S : Int) (tA : Bool) (i : Int)
    (h : len ≤ i) : blockLoopGo len S tA i = [] := by
  rw [blockLoopGo, dif_neg]
  intro hc
  omega

/-- C3 (amended): the thread-loop, warp-loop and masked-loop executors
invoke the enclosed statements once per strided chunk on every lane — each
lane's offsets are lane 0's chunk starts shifted by the lane id — and the
flag passed down is `thread_active && have_work` with `have_work` the
bounds test, so a lane whose index in the final chunk exceeds the segment
gets an invocation with the flag false rather than being skipped.  The
block-loop executor does not follow this contract: its loop condition skips
every out-of-range index, all its invocations carry `thread_active`
unchanged with in-range offsets, and a block starting past the segment
performs no invocation at all. -/
theorem c3_strided_loop_lane_participation (len S i0 : Int) (tA : Bool) :
    ((cuda_thread_xyz_loop_exec len S i0 tA).map (fun inv => inv.data.offset)
      = (cuda_thread_xyz_loop_exec len S 0 tA).map
          (fun inv => inv.data.offset + i0)) ∧
    (∀ inv ∈ cuda_thread_xyz_loop_exec len S i0 tA,
      inv.active = (tA && decide (inv.data.offset < len))) ∧
    ((cuda_warp_loop_exec len i0 tA).map (fun inv => inv.data.offset)
      = (cuda_warp_loop_exec len 0 tA).map
          (fun inv => inv.data.offset + i0)) ∧
    (∀ inv ∈ cuda_warp_loop_exec len i0 tA,
      inv.active = (tA && decide (inv.data.offset < len))) ∧
    ((cuda_warp_masked_loop_exec len S i0 tA).map (fun inv => inv.data.offset)
      = (cuda_warp_masked_loop_exec len S 0 tA).map
          (fun inv => inv.data.offset + i0)) ∧
    (∀ inv ∈ cuda_warp_masked_loop_exec len S i0 tA,
      inv.active = (tA && decide (inv.data.offset < len))) ∧
    (∀ inv ∈ cuda_thread_masked_loop_exec len S i0 tA,
      inv.active = (tA && decide (inv.data.offset < len))) ∧
    (∀ inv ∈ cuda_block_xyz_loop_exec len i0 S tA,
      inv.active = tA ∧ inv.data.offset < len) ∧
    (len ≤ i0 → cuda_block_xyz_loop_exec len i0 S tA = []) := by
  refine ⟨stridedLoopGo_shift len S i0 tA 0,
    fun inv hinv => (stridedLoopGo_active len S i0 tA 0 inv hinv).1,
    stridedLoopGo_shift len WARP_SIZE i0 tA 0,
    fun inv hinv => (stridedLoopGo_active len WARP_SIZE i0 tA 0 inv hinv).1,
    stridedLoopGo_shift len S i0 tA 0,
    fun inv hinv => (stridedLoopGo_active len S i0 tA 0 inv hinv).1,
    fun inv hinv => (stridedLoopGo_active len S i0 tA 0 inv hinv).1,
    fun inv hinv => ⟨(blockLoopGo_active len S tA i0 inv hinv).1,
      (blockLoopGo_active len S tA i0 inv hinv).2.1⟩,
    fun h => blockLoopGo_past_end len S tA i0 h⟩

/-- C3 witness: a block lane starting at 2 with segment length 1 performs
no invocation. -/
theorem c3_strided_loop_lane_participation_witness :
    cuda_block_xyz_loop_exec 1 2 1 true = [] :=
  (c3_strided_loop_lane_participation 1 1 2 true).2.2.2.2.2.2.2.2
    (by norm_num)

/-- C3 counterexample: at segment length 1 with stride 2, lane 1 of the
thread-loop executor is invoked in chunk 0 with `have_work = false`,
but lane/block 1 of the block-loop executor at the same input is skipped
outright — the claim's "all physical lanes, including lanes past length"
fails for the block-loop policy. -/
theorem c3_counterexample_block_loop_skips :
    cuda_block_xyz_loop_exec 1 1 2 true = [] ∧
    cuda_thread_xyz_loop_exec 1 2 1 true = [⟨⟨1, 1⟩, false⟩] := by
  constructor
  · simp [cuda_block_xyz_loop_exec, blockLoopGo]
  · simp [cuda_thread_xyz_loop_exec, stridedLoopGo]

/-- An integer multiple of `S` strictly between `-S` and `S` is zero. -/
theorem dvd_small_eq_zero {S d : Int} (hS : 0 < S) (hd : S ∣ d)
    (hlow : -S < d) (hhigh : d < S) : d = 0 := by
  rcases hd with ⟨k, rfl⟩
  rcases lt_trichotomy k 0 with hk | hk | hk
  · have hk1 : k ≤ -1 := by omega
    have := mul_le_mul_of_nonneg_left hk1 hS.le
    omega
  · simp [hk]
  · have hk1 : 1 ≤ k := by omega
    have := mul_le_mul_of_nonneg_left hk1 hS.le
    omega

/-- A negative multiple of positive `S` is at most `-S`. -/
theorem dvd_neg_le {S d : Int} (hd : S ∣ d) (hneg : d < 0) :
    d ≤ -S := by
  have h1 : S ∣ -d := (dvd_neg).mpr hd
  have h2 : S ≤ -d := Int.le_of_dvd (by omega) h1
  omega

/-- Peeling one invocation off an active-offset trace. -/
theorem activeOffsets_cons (inv : Invocation) (t : List Invocation) :
    activeOffsets (inv :: t)
      = (if inv.active then [inv.data.offset] else []) ++ activeOffsets t := by
  by_cases h : inv.active <;> simp [activeOffsets, h]

/-- A single lane of the thread-direct executor contributes its own index
when in range and nothing otherwise. -/
theorem directLane_activeOffsets (len i : Int) (d : KernelData) :
    activeOffsets (cuda_thread_xyz_direct_exec len i d true).2
      = if i < len then [i] else [] := by
  by_cases h : i < len <;>
    simp [cuda_thread_xyz_direct_exec, activeOffsets, h]

/-- Counting one index across all lanes of a thread-direct launch. -/
theorem directLaunch_count (len : Int) (T : Nat) (j : Int) :
    (directLaunchOffsets len T).count j
      = if 0 ≤ j ∧ j < len ∧ j < (T : Int) then 1 else 0 := by
  induction T with
  | zero =>
    rw [if_neg (by omega)]
    simp [directLaunchOffsets]
  | succ n ih =>
    rw [directLaunchOffsets, List.range_succ, List.flatMap_append,
      List.count_append]
    rw [directLaunchOffsets] at ih
    rw [ih]
    simp only [List.flatMap_cons, List.flatMap_nil, List.append_nil]
    rw [directLane_activeOffsets]
    by_cases hn : (n : Int) < len
    · rw [if_pos hn]
      by_cases hj : j = (n : Int)
      · subst hj
        rw [if_neg (by omega), if_pos (by constructor <;> omega)]
        simp
      · have : (List.count j [(n : Int)]) = 0 := by
          simp [List.count_singleton]
          omega
        rw [this]
        by_cases h1 : 0 ≤ j ∧ j < len ∧ j < (n : Int)
        · rw [if_pos h1, if_pos (by push_cast; omega)]
        · rw [if_neg h1, if_neg (by push_cast at h1 ⊢; omega)]
    · rw [if_neg hn]
      simp only [List.count_nil, Nat.add_zero]
      by_cases h1 : 0 ≤ j ∧ j < len ∧ j < (n : Int)
      · rw [if_pos h1, if_pos (by push_cast; omega)]
      · rw [if_neg h1, if_neg (by push_cast at h1 ⊢; omega)]

/-- Counting an element in a conditionally-present singleton. -/
theorem count_bool_singleton (b : Bool) (x j : Int) :
    ((if b then [x] else []) : List Int).count j
      = if b = true ∧ j = x then 1 else 0 := by
  cases b
  · simp
  · by_cases hj : j = x
    · subst hj
      simp
    · have hx : (x == j) = false := by
        simp only [beq_eq_false_iff_ne, ne_eq]
        exact fun hc => hj hc.symm
      simp [List.count_singleton, hx, hj]

/-- Peeling one explicit invocation off an active-offset trace. -/
theorem activeOffsets_cons_mk (o p : Int) (b : Bool) (t : List Invocation) :
    activeOffsets (⟨⟨o, p⟩, b⟩ :: t)
      = (if b then [o] else []) ++ activeOffsets t := by
  by_cases h : b <;> simp [activeOffsets, h]

/-- Counting one index in the active offsets of a single strided-loop lane:
lane `i0` contributes index `j` exactly once when `j` lies in the lane's
arithmetic progression (step `S`, starting at `ii + i0`) and in range. -/
theorem stridedLane_count (len S i0 : Int) (hS : 0 < S) (hi0 : 0 ≤ i0)
    (j : Int) (ii : Int) :
    (activeOffsets (stridedLoopGo len S i0 true ii)).count j
      = if ii + i0 ≤ j ∧ j < len ∧ S ∣ (j - i0 - ii) then 1 else 0 := by
  by_cases h : 0 < S ∧ ii < len
  · rw [stridedLoopGo_pos len S i0 true ii h, activeOffsets_cons_mk,
      List.count_append, count_bool_singleton,
      stridedLane_count len S i0 hS hi0 j (ii + S)]
    simp only [Bool.true_and, decide_eq_true_eq]
    have hds : S ∣ (j - i0 - (ii + S)) ↔ S ∣ (j - i0 - ii) := by
      constructor
      · intro hx
        have hsum := dvd_add hx (dvd_refl S)
        have heq : j - i0 - (ii + S) + S = j - i0 - ii := by ring
        rwa [heq] at hsum
      · intro hx
        have hsub := dvd_sub hx (dvd_refl S)
        have heq : j - i0 - ii - S = j - i0 - (ii + S) := by ring
        rwa [heq] at hsub
    by_cases hjlen : j < len
    · by_cases hdvd : S ∣ (j - i0 - ii)
      · by_cases hj1 : j = ii + i0
        · rw [if_pos ⟨hj1 ▸ hjlen, hj1⟩,
            if_neg (fun hc => by omega),
            if_pos ⟨by omega, hjlen, hdvd⟩]
        · by_cases hj2 : ii + i0 ≤ j
          · have hSle : S ≤ j - i0 - ii := Int.le_of_dvd (by omega) hdvd
            rw [if_neg (fun hc => hj1 hc.2),
              if_pos ⟨by omega, hjlen, hds.mpr hdvd⟩,
              if_pos ⟨hj2, hjlen, hdvd⟩]
          · have hle : j - i0 - ii ≤ -S := dvd_neg_le hdvd (by omega)
            rw [if_neg (fun hc => hj1 hc.2),
              if_neg (fun hc => absurd hc.1 (by omega)),
              if_neg (fun hc => hj2 hc.1)]
      · rw [if_neg (fun hc => hdvd ⟨0, by rw [hc.2]; ring⟩),
          if_neg (fun hc => hdvd (hds.mp hc.2.2)),
          if_neg (fun hc => hdvd hc.2.2)]
    · rw [if_neg (show ¬(ii + i0 < len ∧ j = ii + i0) from
          fun hc => hjlen (by rw [hc.2]; exact hc.1)),
        if_neg (fun hc => hjlen hc.2.1),
        if_neg (fun hc => hjlen hc.2.1)]
  · rw [stridedLoopGo_neg len S i0 true ii h]
    have hcond : ¬(ii + i0 ≤ j ∧ j < len ∧ S ∣ (j - i0 - ii)) := by
      intro hc
      have h1 := hc.1
      have h2 := hc.2.1
      omega
    rw [if_neg hcond]
    simp [activeOffsets]
termination_by (len - ii).toNat
decreasing_by omega

/-- Summing the per-lane counts over lanes `0, …, L-1` of a strided loop:
with `r` the residue of `j` modulo the stride, exactly one lane below `L`
owns index `j` once `r < L`. -/
theorem stridedLaunch_laneSum (len S r j : Int) (hS : 0 < S) (hr0 : 0 ≤ r)
    (hrS : r < S) (hdr : S ∣ (j - r)) :
    ∀ L : Nat, (L : Int) ≤ S →
      ((List.range L).map (fun (t : Nat) =>
          if (t : Int) ≤ j ∧ j < len ∧ S ∣ (j - (t : Int)) then 1 else 0)).sum
        = if 0 ≤ j ∧ j < len ∧ r < (L : Int) then (1 : Nat) else 0 := by
  intro L
  induction L with
  | zero =>
    intro _
    rw [if_neg (fun hc => by
      have h3 := hc.2.2
      push_cast at h3
      omega)]
    simp
  | succ n ih =>
    intro hL
    have hnS : (n : Int) < S := by push_cast at hL; omega
    rw [List.range_succ, List.map_append, List.sum_append, ih (le_of_lt hnS)]
    simp only [List.map_cons, List.map_nil, List.sum_cons, List.sum_nil,
      Nat.add_zero]
    have hiff : ((n : Int) ≤ j ∧ j < len ∧ S ∣ (j - (n : Int)))
        ↔ (0 ≤ j ∧ j < len ∧ r = (n : Int)) := by
      constructor
      · rintro ⟨h1, h2, h3⟩
        have hd2 : S ∣ ((n : Int) - r) := by
          have hx := dvd_sub hdr h3
          have heq : j - r - (j - (n : Int)) = (n : Int) - r := by ring
          rwa [heq] at hx
        have hz : (n : Int) - r = 0 :=
          dvd_small_eq_zero hS hd2 (by omega) (by omega)
        exact ⟨by omega, h2, by omega⟩
      · rintro ⟨h1, h2, h3⟩
        have hdj : S ∣ (j - (n : Int)) := by rw [← h3]; exact hdr
        refine ⟨?_, h2, hdj⟩
        by_contra hlt
        push_neg at hlt
        have hneg : j - r < 0 := by omega
        have hle := dvd_neg_le hdr hneg
        omega
    rw [if_congr hiff rfl rfl]
    push_cast
    split_ifs <;> omega

/-- Counting one index across all lanes of a strided-loop launch whose lane
count equals the stride: every index of `[0, len)` reaches the enclosed
statements actively exactly once across the whole launch. -/
theorem stridedLaunch_count (len : Int) (S : Nat) (hS : 0 < S) (j : Int) :
    (((List.range S).flatMap fun t =>
        activeOffsets (stridedLoopGo len (S : Int) (t : Int) true 0))).count j
      = if 0 ≤ j ∧ j < len then 1 else 0 := by
  have hSi : (0 : Int) < (S : Int) := by exact_mod_cast hS
  rw [List.count_flatMap]
  have hmap : List.map (List.count j ∘ fun (t : Nat) =>
        activeOffsets (stridedLoopGo len (S : Int) (t : Int) true 0))
        (List.range S)
      = List.map (fun (t : Nat) =>
          if (t : Int) ≤ j ∧ j < len ∧ (S : Int) ∣ (j - (t : Int))
          then 1 else 0) (List.range S) := by
    apply List.map_congr_left
    intro t _
    have hlane := stridedLane_count len (S : Int) (t : Int) hSi
      (Int.natCast_nonneg t) j 0
    simpa only [Function.comp_apply, zero_add, sub_zero] using hlane
  rw [hmap,
    stridedLaunch_laneSum len (S : Int) (j % (S : Int)) j hSi
      (Int.emod_nonneg j (by omega)) (Int.emod_lt_of_pos j hSi)
      (Int.dvd_sub_of_emod_eq rfl) S (le_refl _)]
  have hlt := Int.emod_lt_of_pos j hSi
  have hcollapse : (0 ≤ j ∧ j < len ∧ j % (S : Int) < (S : Int))
      ↔ (0 ≤ j ∧ j < len) := by
    constructor
    · rintro ⟨a, b, _⟩
      exact ⟨a, b⟩
    · rintro ⟨a, b⟩
      exact ⟨a, b, hlt⟩
  rw [if_congr hcollapse rfl rfl]

/-- One unfolding of the sequential loop body when the index is in range. -/
theorem seqGo_pos (len : Int) (tA : Bool) (i : Int) (h : i < len) :
    seqGo len tA i
      = ⟨{ offset := i, param := i }, tA⟩ :: seqGo len tA (i + 1) := by
  rw [seqGo, dif_pos h]

/-- One unfolding of the sequential loop body past the end. -/
theorem seqGo_neg (len : Int) (tA : Bool) (i : Int) (h : ¬ i < len) :
    seqGo len tA i = [] := by
  rw [seqGo, dif_neg h]

/-- An always-active invocation contributes its offset to the trace. -/
theorem activeOffsets_cons_active (o p : Int) (t : List Invocation) :
    activeOffsets (⟨⟨o, p⟩, true⟩ :: t) = o :: activeOffsets t := by
  simp [activeOffsets]

/-- The sequential executor visits each index of `[i, len)` actively
exactly once. -/
theorem seqLane_count (len j i : Int) :
    (activeOffsets (seqGo len true i)).count j
      = if i ≤ j ∧ j < len then 1 else 0 := by
  by_cases h : i < len
  · rw [seqGo_pos len true i h, activeOffsets_cons_active,
      List.count_cons, seqLane_count len j (i + 1)]
    simp only [beq_iff_eq]
    split_ifs <;> omega
  · rw [seqGo_neg len true i h,
      if_neg (fun hc => h (lt_of_le_of_lt hc.1 hc.2))]
    simp [activeOffsets]
termination_by (len - i).toNat
decreasing_by omega

/-- The masked-direct lane aggregation coincides with the thread-direct
one: the executor bodies are identical, only the index source (mask value
versus thread index) differs. -/
theorem maskedDirect_eq_direct :
    maskedDirectLaunchOffsets = directLaunchOffsets := rfl

/-- C1: index coverage.  For a segment of length `len`, counting each index
over all hardware lanes of one launch entered with `thread_active = true`:
with the thread-direct executor over `T ≥ len` lanes, the thread-loop
executor over `S ≥ 1` lanes at stride `S`, the warp-loop executor over the
`WARP_SIZE` warp lanes, the warp-masked-direct executor over `M ≥ len`
distinct mask values, and the sequential executor, every index of
`[0, len)` reaches the enclosed statements with the active flag set in
exactly one (lane, iteration) pair, and no other index does. -/
theorem c1_index_coverage (len : Int) (T S M : Nat) (j : Int)
    (hT : len ≤ (T : Int)) (hS : 0 < S) (hM : len ≤ (M : Int)) :
    ((directLaunchOffsets len T).count j
        = if 0 ≤ j ∧ j < len then 1 else 0) ∧
    ((threadLoopLaunchOffsets len S).count j
        = if 0 ≤ j ∧ j < len then 1 else 0) ∧
    ((warpLoopLaunchOffsets len).count j
        = if 0 ≤ j ∧ j < len then 1 else 0) ∧
    ((maskedDirectLaunchOffsets len M).count j
        = if 0 ≤ j ∧ j < len then 1 else 0) ∧
    ((seqLaunchOffsets len).count j
        = if 0 ≤ j ∧ j < len then 1 else 0) := by
  have hdirect : ∀ N : Nat, len ≤ (N : Int) →
      (directLaunchOffsets len N).count j
        = if 0 ≤ j ∧ j < len then 1 else 0 := by
    intro N hN
    rw [directLaunch_count]
    have hiff : (0 ≤ j ∧ j < len ∧ j < (N : Int)) ↔ (0 ≤ j ∧ j < len) := by
      constructor
      · rintro ⟨a, b, _⟩
        exact ⟨a, b⟩
      · rintro ⟨a, b⟩
        exact ⟨a, b, by omega⟩
    rw [if_congr hiff rfl rfl]
  refine ⟨hdirect T hT, ?_, ?_, ?_, ?_⟩
  · exact stridedLaunch_count len S hS j
  · exact stridedLaunch_count len 32 (by norm_num) j
  · rw [maskedDirect_eq_direct]
    exact hdirect M hM
  · exact seqLane_count len j 0

/-- C1 witness: with segment length 3, 4 direct lanes, 2 loop lanes and
mask size 4, index 1 is executed actively exactly once per policy. -/
theorem c1_index_coverage_witness :
    (directLaunchOffsets 3 4).count 1 = 1 ∧
    (threadLoopLaunchOffsets 3 2).count 1 = 1 ∧
    (seqLaunchOffsets 3).count 1 = 1 := by
  have h := c1_index_coverage 3 4 2 4 1 (by norm_num) (by norm_num)
    (by norm_num)
  refine ⟨?_, ?_, ?_⟩
  · have h1 := h.1
    rwa [if_pos (by norm_num)] at h1
  · have h1 := h.2.1
    rwa [if_pos (by norm_num)] at h1
  · have h1 := h.2.2.2.2
    rwa [if_pos (by norm_num)] at h1

/-- Enqueueing a list of entries one at a time appends them in order. -/
theorem enqueue_foldl (items : List WorkItem) (p : WorkPool) :
    items.foldl WorkPool.enqueue p = p ++ items := by
  induction items generalizing p with
  | nil => simp
  | cons w ws ih =>
    rw [List.foldl_cons, ih]
    simp [WorkPool.enqueue]

/-- Running a group under the ordered policy performs exactly the flattened
dispatch-table stores, in enqueue order. -/
theorem runOrdered_eq_dispatch (g : List WorkItem) (s : Store) :
    WorkGroup.runOrdered g s = (dispatchWrites g).foldl applyWrite s := by
  induction g generalizing s with
  | nil => rfl
  | cons e g' ih =>
    rw [WorkGroup.runOrdered, List.foldl_cons, dispatchWrites,
      List.flatMap_cons, List.foldl_append]
    exact ih (seqKernelLaunch s e)

/-- Stores at distinct addresses commute. -/
theorem applyWrite_comm (s : Store) (x y : Int × Int) (h : x.1 ≠ y.1) :
    applyWrite (applyWrite s x) y = applyWrite (applyWrite s y) x := by
  funext a
  by_cases hx : a = x.1 <;> by_cases hy : a = y.1 <;>
    simp [applyWrite, hx, hy] <;> omega

/-- Folding a set of stores whose addresses are pairwise distinct is
schedule-independent: any permutation produces the same memory. -/
theorem foldl_applyWrite_perm (l₁ l₂ : List (Int × Int)) (s : Store)
    (hperm : l₁.Perm l₂) (hnodup : (l₁.map Prod.fst).Nodup) :
    l₁.foldl applyWrite s = l₂.foldl applyWrite s := by
  refine hperm.foldl_eq' ?_ s
  intro x hx y hy z
  by_cases hxy : x = y
  · rw [hxy]
  · exact applyWrite_comm z x y
      (fun hc => hxy (List.inj_on_of_nodup_map hnodup hx hy hc))

/-- C5 (amended): running K enqueued bodies through the
WorkPool → instantiate → WorkGroup → run pipeline under the ordered policy
produces memory identical to K independent sequential launches and
instantiate leaves the pool empty, both unconditionally; under the
unordered policy, every completion schedule of the fused launch produces
that same memory provided the (entry, iteration) stores target
pairwise-distinct addresses (as the halo-exchange pack/unpack bodies do) —
without that disjointness an unordered schedule can differ. -/
theorem c5_workgroup_pipeline_equivalence (items : List WorkItem)
    (s : Store) (sched : List (Int × Int)) :
    workgroupPipelineOrdered items s = seqReference items s ∧
    ((items.foldl WorkPool.enqueue WorkPool.empty).instantiate).2
      = WorkPool.empty ∧
    (sched.Perm (dispatchWrites items) →
      ((dispatchWrites items).map Prod.fst).Nodup →
      WorkGroup.runUnordered sched s = seqReference items s) := by
  have hpool : items.foldl WorkPool.enqueue WorkPool.empty = items := by
    rw [enqueue_foldl]
    rfl
  refine ⟨?_, rfl, ?_⟩
  · rw [workgroupPipelineOrdered, WorkPool.instantiate, hpool]
    rfl
  · intro hperm hnodup
    have href : seqReference items s = (dispatchWrites items).foldl
        applyWrite s := runOrdered_eq_dispatch items s
    rw [href, WorkGroup.runUnordered]
    exact foldl_applyWrite_perm sched (dispatchWrites items) s hperm
      ((hperm.map Prod.fst).nodup_iff.mpr hnodup)

/-- C5 witness: two entries writing addresses 0 and 1, run unordered in
reversed schedule, give the same memory at address 0 as two independent
sequential launches. -/
theorem c5_workgroup_pipeline_equivalence_witness :
    WorkGroup.runUnordered [((1 : Int), (6 : Int)), ((0 : Int), (5 : Int))]
        (fun _ => 0) 0
      = seqReference [⟨1, fun _ => ((0 : Int), (5 : Int))⟩,
          ⟨1, fun _ => ((1 : Int), (6 : Int))⟩] (fun _ => 0) 0 :=
  congrFun
    ((c5_workgroup_pipeline_equivalence
      [⟨1, fun _ => ((0 : Int), (5 : Int))⟩,
       ⟨1, fun _ => ((1 : Int), (6 : Int))⟩]
      (fun _ => 0)
      [((1 : Int), (6 : Int)), ((0 : Int), (5 : Int))]).2.2
      (List.Perm.swap ((0 : Int), (5 : Int)) ((1 : Int), (6 : Int)) [])
      (by decide)) 0

/-- C5 counterexample: two bodies writing the same address — entry 0 writes
10 and 11 at iterations 0 and 1, entry 1 writes 20 — run as independent
sequential launches leave 20 in memory, but the fused unordered launch
completing in transposed (iteration-major) order, a legal schedule of the
dispatch table, leaves 11: the claim's unconditional bitwise equality for
unordered dispatch fails. -/
theorem c5_counterexample_unordered_conflict :
    [((0 : Int), (10 : Int)), ((0 : Int), (20 : Int)),
        ((0 : Int), (11 : Int))].Perm
      (dispatchWrites [⟨2, fun i => ((0 : Int), 10 + (i : Int))⟩,
        ⟨1, fun _ => ((0 : Int), (20 : Int))⟩]) ∧
    WorkGroup.runUnordered [((0 : Int), (10 : Int)), ((0 : Int), (20 : Int)),
        ((0 : Int), (11 : Int))] (fun _ => 0) 0 = 11 ∧
    seqReference [⟨2, fun i => ((0 : Int), 10 + (i : Int))⟩,
        ⟨1, fun _ => ((0 : Int), (20 : Int))⟩] (fun _ => 0) 0 = 20 := by
  refine ⟨?_, rfl, rfl⟩
  have hdw : dispatchWrites [⟨2, fun i => ((0 : Int), 10 + (i : Int))⟩,
      ⟨1, fun _ => ((0 : Int), (20 : Int))⟩]
      = [((0 : Int), (10 : Int)), ((0 : Int), (11 : Int)),
          ((0 : Int), (20 : Int))] := by
    simp [dispatchWrites, List.range_succ]
  rw [hdw]
  exact List.Perm.cons ((0 : Int), (10 : Int))
    (List.Perm.swap ((0 : Int), (11 : Int)) ((0 : Int), (20 : Int)) [])

/-- The DAG traversal stops when no pending node is ready. -/
theorem dagExecGo_none (edges : List (Nat × Nat)) (pending done : List Nat)
    (hfind : pending.find? (predsDone edges done) = none) :
    dagExecGo edges pending done = done := by
  unfold dagExecGo
  rw [hfind]

/-- The DAG traversal runs the first ready pending node. -/
theorem dagExecGo_some (edges : List (Nat × Nat)) (pending done : List Nat)
    (x : Nat) (hfind : pending.find? (predsDone edges done) = some x) :
    dagExecGo edges pending done
      = dagExecGo edges (pending.erase x) (done ++ [x]) := by
  conv_lhs => rw [dagExecGo]
  rw [hfind]

/-- Invariant-carrying correctness of the DAG traversal: starting from a
completed prefix `done` and pending nodes that together are the nodes
`0, …, n-1`, if every edge goes from a lower to a higher node id (the
random-graph test fixture's acyclicity guarantee) then the traversal
completes every node, and every edge's source completes strictly before
its destination. -/
theorem dagExecGo_spec (n : Nat) (edges : List (Nat × Nat))
    (hedges : ∀ e ∈ edges, e.1 < e.2 ∧ e.2 < n)
    (pending done : List Nat)
    (hmem : (done ++ pending).Perm (List.range n))
    (hpnd : pending.Nodup)
    (hdnd : done.Nodup)
    (hdisj : ∀ y ∈ pending, y ∉ done)
    (hord : ∀ e ∈ edges, e.2 ∈ done →
      e.1 ∈ done ∧ done.indexOf e.1 < done.indexOf e.2) :
    (dagExecGo edges pending done).Perm (List.range n) ∧
    ∀ e ∈ edges, e.2 ∈ dagExecGo edges pending done →
      e.1 ∈ dagExecGo edges pending done ∧
      (dagExecGo edges pending done).indexOf e.1
        < (dagExecGo edges pending done).indexOf e.2 := by
  cases hfind : pending.find? (predsDone edges done) with
  | none =>
    rw [dagExecGo_none edges pending done hfind]
    have hpe : pending = [] := by
      by_contra hne
      obtain ⟨m0, hm0⟩ := List.exists_mem_of_ne_nil pending hne
      have hex : ∃ k, k ∈ pending := ⟨m0, hm0⟩
      have hm : Nat.find hex ∈ pending := Nat.find_spec hex
      have hmin : ∀ y ∈ pending, Nat.find hex ≤ y := by
        intro y hy
        by_contra hlt
        push_neg at hlt
        exact Nat.find_min hex hlt hy
      have hnotready := List.find?_eq_none.mp hfind (Nat.find hex) hm
      have hbad : ∃ e ∈ edges, e.2 = Nat.find hex ∧ e.1 ∉ done := by
        by_contra hall
        push_neg at hall
        apply hnotready
        simp only [predsDone, List.all_eq_true]
        intro e he
        by_cases h2 : e.2 = Nat.find hex
        · simp [h2, hall e he h2]
        · simp [h2]
      obtain ⟨e, he, he2, he1⟩ := hbad
      have h1n : e.1 < n := by
        have h12 := hedges e he
        omega
      have h1mem : e.1 ∈ done ++ pending :=
        (hmem.mem_iff).mpr (List.mem_range.mpr h1n)
      rcases List.mem_append.mp h1mem with hin | hin
      · exact he1 hin
      · have hge := hmin e.1 hin
        have h12 := (hedges e he).1
        omega
    subst hpe
    rw [List.append_nil] at hmem
    exact ⟨hmem, fun e he h2 => hord e he h2⟩
  | some x =>
    rw [dagExecGo_some edges pending done x hfind]
    have hx : x ∈ pending := List.mem_of_find?_eq_some hfind
    have hxready : predsDone edges done x = true := List.find?_some hfind
    have hxnotdone : x ∉ done := hdisj x hx
    have hmem' : ((done ++ [x]) ++ pending.erase x).Perm (List.range n) := by
      have hstep : (done ++ [x]) ++ pending.erase x
          = done ++ (x :: pending.erase x) := by simp
      rw [hstep]
      exact (List.Perm.append_left done
        (List.perm_cons_erase hx).symm).trans hmem
    have hpnd' : (pending.erase x).Nodup := hpnd.erase x
    have hdnd' : (done ++ [x]).Nodup := by
      rw [List.nodup_append]
      refine ⟨hdnd, List.nodup_singleton x, ?_⟩
      intro a ha ha2
      rw [List.mem_singleton] at ha2
      exact hxnotdone (ha2 ▸ ha)
    have hdisj' : ∀ y ∈ pending.erase x, y ∉ done ++ [x] := by
      intro y hy
      obtain ⟨hyx, hyp⟩ := (hpnd.mem_erase_iff).mp hy
      intro hc
      rcases List.mem_append.mp hc with hc | hc
      · exact hdisj y hyp hc
      · exact hyx (List.mem_singleton.mp hc)
    have hord' : ∀ e ∈ edges, e.2 ∈ done ++ [x] →
        e.1 ∈ done ++ [x] ∧
        (done ++ [x]).indexOf e.1 < (done ++ [x]).indexOf e.2 := by
      intro e he h2
      rcases List.mem_append.mp h2 with h2d | h2x
      · obtain ⟨h1d, hlt⟩ := hord e he h2d
        refine ⟨List.mem_append_left _ h1d, ?_⟩
        rw [List.indexOf_append_of_mem h1d, List.indexOf_append_of_mem h2d]
        exact hlt
      · have h2x' : e.2 = x := List.mem_singleton.mp h2x
        have h1d : e.1 ∈ done := by
          have hall := hxready
          simp only [predsDone, List.all_eq_true] at hall
          have he' := hall e he
          simp [h2x'] at he'
          exact he'
        refine ⟨List.mem_append_left _ h1d, ?_⟩
        rw [List.indexOf_append_of_mem h1d, h2x',
          List.indexOf_append_of_not_mem hxnotdone,
          List.indexOf_cons_self]
        have hlt := List.indexOf_lt_length.mpr h1d
        omega
    exact dagExecGo_spec n edges hedges (pending.erase x) (done ++ [x])
      hmem' hpnd' hdnd' hdisj' hord'
termination_by pending.length
decreasing_by
  have hx := List.mem_of_find?_eq_some hfind
  have hlen := List.length_erase_of_mem hx
  have hpos : 0 < pending.length := List.length_pos.mpr (List.ne_nil_of_mem hx)
  omega

/-- C6: executing a DAG whose nodes are `0, …, n-1` and whose edges all go
from a lower to a higher node id (the fixture invariant of the random-graph
test, which any finite DAG satisfies after topological relabeling), under
any scheduler consideration order of the nodes, completes every node, and
for every edge (u, v) the completion position of u strictly precedes the
completion position of v; nodes with no edge between them are not
constrained. -/
theorem c6_dag_exec_topological (n : Nat) (edges : List (Nat × Nat))
    (pending : List Nat)
    (hedges : ∀ e ∈ edges, e.1 < e.2 ∧ e.2 < n)
    (hperm : pending.Perm (List.range n)) :
    (DAG.exec edges pending).Perm (List.range n) ∧
    ∀ e ∈ edges, (DAG.exec edges pending).indexOf e.1
        < (DAG.exec edges pending).indexOf e.2 := by
  have hspec := dagExecGo_spec n edges hedges pending []
    (by simpa using hperm)
    (hperm.nodup_iff.mpr (List.nodup_range n))
    List.nodup_nil
    (fun y _ => List.not_mem_nil y)
    (fun e _ h2 => absurd h2 (List.not_mem_nil _))
  refine ⟨hspec.1, fun e he => ?_⟩
  have h2mem : e.2 ∈ dagExecGo edges pending [] :=
    (hspec.1.mem_iff).mpr (List.mem_range.mpr (hedges e he).2)
  exact (hspec.2 e he h2mem).2

/-- C6 witness: the 4-node diamond 0→1, 0→2, 1→3, 2→3 of the unit test:
node 1 completes before node 3. -/
theorem c6_dag_exec_topological_witness :
    (DAG.exec [(0, 1), (0, 2), (1, 3), (2, 3)] [0, 1, 2, 3]).indexOf 1
      < (DAG.exec [(0, 1), (0, 2), (1, 3), (2, 3)] [0, 1, 2, 3]).indexOf 3 :=
  (c6_dag_exec_topological 4 [(0, 1), (0, 2), (1, 3), (2, 3)] [0, 1, 2, 3]
    (by decide) (by decide)).2 (1, 3) (by decide)
